import Mathlib

/-!
Shallow embedding of the calculator pipeline of `src/calculator.js`:
a token model (leaf kinds grouped under abstract category kinds), a lexer,
a CST-building recursive-descent parser for the grammar
`expression → additionExpression → atomicExpression (AdditionOperator atomicExpression)*`,
and the CST visitor that evaluates the tree.

The token declarations, the `values` table, the grammar rules and the visitor
methods are translated from `src/calculator.js`.  The generic lexing, parsing
and category-matching machinery is supplied by the parsing library the source
builds on (not part of the repository); those engines are modelled from the
spec's contracts (§4.1 Token Model, §4.2 Lexer, §4.3 Grammar / Parser).
-/

namespace Calculator

/-- The eight declared token kinds of `src/calculator.js` lines 21-35:
five leaf kinds (`Plus`, `One`..`Four`), the skipped `WhiteSpace`,
and the two abstract category kinds (`pattern: Lexer.NA`). -/
inductive TokenKind where
  | WhiteSpace
  | Plus
  | One
  | Two
  | Three
  | Four
  | NumberLiteral
  | AdditionOperator
deriving DecidableEq, Repr

/-- The `categories` field of each `createToken` call:
`Plus` is in `AdditionOperator`; `One`..`Four` are in `NumberLiteral`. -/
def categories : TokenKind → List TokenKind
  | .Plus => [.AdditionOperator]
  | .One => [.NumberLiteral]
  | .Two => [.NumberLiteral]
  | .Three => [.NumberLiteral]
  | .Four => [.NumberLiteral]
  | _ => []

/-- Modelled from the spec: transitive closure of the `categories` relation,
computed once per kind at token-definition time (spec §4.1, "transitively lists
`kind` among its categories").  The fuel bound 8 is the number of kinds, an
upper bound on any ancestor chain. -/
def ancestorsAux : Nat → TokenKind → List TokenKind
  | 0, _ => []
  | n + 1, k => (categories k).foldr (fun c acc => c :: ancestorsAux n c ++ acc) []

/-- The category-ancestor set of a kind. -/
def ancestors (k : TokenKind) : List TokenKind := ancestorsAux 8 k

/-- A token instance: its leaf kind, matched substring (image) and
start offset in the source text. -/
structure Token where
  tokenType : TokenKind
  image : List Char
  startOffset : Nat
deriving DecidableEq, Repr

/-- Modelled from the spec: `categoryMatch(token_instance, kind)` (§4.1) —
true iff the instance's leaf kind equals `kind` or transitively lists `kind`
among its categories.  This is the library's `tokenMatcher` used at
`src/calculator.js` line 117. -/
def tokenMatcher (t : Token) (k : TokenKind) : Bool :=
  t.tokenType == k || (ancestors t.tokenType).contains k

/-- Whitespace characters recognised by the `/\s+/` pattern of `WhiteSpace`
(`src/calculator.js` line 33), restricted to the common ASCII class. -/
def isWsChar (c : Char) : Bool :=
  c == ' ' || c == '\t' || c == '\n' || c == '\r' || c == '\x0b' || c == '\x0c'

/-- Matching a literal pattern (e.g. `/plus/`) at the start of the text:
returns the image and the remaining text. -/
def matchLiteral (lit cs : List Char) : Option (List Char × List Char) :=
  if lit.isPrefixOf cs then some (lit, cs.drop lit.length) else none

/-- The recognition pattern of each kind, applied at the current position
(spec §4.2): literal word patterns for the leaf kinds, a greedy
one-or-more whitespace run for `WhiteSpace`, and no match at all for the
abstract kinds declared with `pattern: Lexer.NA`. -/
def matchKind : TokenKind → List Char → Option (List Char × List Char)
  | .WhiteSpace, cs =>
      if (cs.takeWhile isWsChar).isEmpty then none
      else some (cs.takeWhile isWsChar, cs.dropWhile isWsChar)
  | .Plus, cs => matchLiteral "plus".toList cs
  | .One, cs => matchLiteral "one".toList cs
  | .Two, cs => matchLiteral "two".toList cs
  | .Three, cs => matchLiteral "three".toList cs
  | .Four, cs => matchLiteral "four".toList cs
  | .NumberLiteral, _ => none
  | .AdditionOperator, _ => none

/-- The declared priority order of `allTokens` (`src/calculator.js` lines 39-48):
whitespace first, then the operator and number leaf kinds, then the two
abstract kinds. -/
def allTokens : List TokenKind :=
  [.WhiteSpace, .Plus, .One, .Two, .Three, .Four, .NumberLiteral, .AdditionOperator]

/-- `group: Lexer.SKIPPED` marks `WhiteSpace` as discarded by the lexer. -/
def isSkipped : TokenKind → Bool
  | .WhiteSpace => true
  | _ => false

/-- Modelled from the spec: the lexer tries kind patterns in declared priority
order and takes the first match (§4.1 "first-declared-first-tried", §4.2). -/
def firstMatch : List TokenKind → List Char → Option (TokenKind × List Char × List Char)
  | [], _ => none
  | k :: ks, cs =>
    match matchKind k cs with
    | some (img, rest) => some (k, img, rest)
    | none => firstMatch ks cs

/-- A lexing failure: the offset at which no declared kind's pattern matched. -/
structure LexError where
  offset : Nat
deriving DecidableEq, Repr

theorem isPrefixOf_append_drop :
    ∀ {lit cs : List Char}, lit.isPrefixOf cs = true →
      lit ++ cs.drop lit.length = cs := by
  intro lit
  induction lit with
  | nil => intro cs _; simp
  | cons a as ih =>
    intro cs h
    cases cs with
    | nil => simp [List.isPrefixOf] at h
    | cons b bs =>
      simp only [List.isPrefixOf, Bool.and_eq_true, beq_iff_eq] at h
      obtain ⟨hab, htail⟩ := h
      subst hab
      simp only [List.length_cons, List.drop_succ_cons, List.cons_append,
        List.cons.injEq, true_and]
      exact ih htail

theorem matchLiteral_some {lit cs img rest : List Char}
    (h : matchLiteral lit cs = some (img, rest)) :
    img = lit ∧ lit ++ rest = cs := by
  unfold matchLiteral at h
  split at h
  · next hpre =>
    injection h with h1
    injection h1 with h1 h2
    subst h1; subst h2
    exact ⟨rfl, isPrefixOf_append_drop hpre⟩
  · exact absurd h (by simp)

theorem matchKind_some {k : TokenKind} {cs img rest : List Char}
    (h : matchKind k cs = some (img, rest)) :
    img ≠ [] ∧ img ++ rest = cs := by
  cases k
  case WhiteSpace =>
    simp only [matchKind] at h
    split at h
    · exact absurd h (by simp)
    · next hne =>
      injection h with h1
      injection h1 with h1 h2
      subst h1; subst h2
      constructor
      · simpa [List.isEmpty_iff] using hne
      · exact List.takeWhile_append_dropWhile isWsChar cs
  case NumberLiteral => exact absurd h (by simp [matchKind])
  case AdditionOperator => exact absurd h (by simp [matchKind])
  all_goals
    simp only [matchKind] at h
    obtain ⟨h1, h2⟩ := matchLiteral_some h
    subst h1
    exact ⟨by simp, h2⟩

theorem matchKind_length {k : TokenKind} {cs img rest : List Char}
    (h : matchKind k cs = some (img, rest)) : rest.length < cs.length := by
  obtain ⟨hne, happ⟩ := matchKind_some h
  have := congrArg List.length happ
  simp at this
  have : img.length ≠ 0 := by simpa using hne
  omega

theorem firstMatch_some {ks : List TokenKind} {cs : List Char}
    {k : TokenKind} {img rest : List Char}
    (h : firstMatch ks cs = some (k, img, rest)) :
    k ∈ ks ∧ matchKind k cs = some (img, rest) := by
  induction ks with
  | nil => exact absurd h (by simp [firstMatch])
  | cons k0 ks ih =>
    unfold firstMatch at h
    revert h
    cases hm : matchKind k0 cs with
    | some p =>
      intro h
      obtain ⟨img0, rest0⟩ := p
      injection h with h1
      injection h1 with h1 h2
      subst h1
      injection h2 with h2 h3
      subst h2; subst h3
      exact ⟨List.mem_cons_self _ _, hm⟩
    | none =>
      intro h
      obtain ⟨hmem, hmk⟩ := ih h
      exact ⟨List.mem_cons_of_mem _ hmem, hmk⟩

theorem firstMatch_length {ks : List TokenKind} {cs : List Char}
    {k : TokenKind} {img rest : List Char}
    (h : firstMatch ks cs = some (k, img, rest)) : rest.length < cs.length :=
  matchKind_length (firstMatch_some h).2

/-- Modelled from the spec: the lexer's scan loop (§4.2) — scans left to right,
at each position tries the kind patterns in declared order; on a match advances
past the matched substring, emitting a token unless the kind is skipped;
fails with a `LexError` carrying the position when nothing matches. -/
def tokenizeAux (cs : List Char) (pos : Nat) : Except LexError (List Token) :=
  if cs.isEmpty then .ok []
  else
    match hm : firstMatch allTokens cs with
    | none => .error ⟨pos⟩
    | some (k, img, rest) =>
      match tokenizeAux rest (pos + img.length) with
      | .error e => .error e
      | .ok ts => .ok (if isSkipped k then ts else ⟨k, img, pos⟩ :: ts)
termination_by cs.length
decreasing_by
  exact firstMatch_length hm

/-- `tokenize(text)`: run the scan loop from offset 0. -/
def tokenize (text : String) : Except LexError (List Token) :=
  tokenizeAux text.toList 0

/-! ## Parser

The grammar of `src/calculator.js` lines 61-78:

* `expression      → SUBRULE additionExpression`
* `additionExpression → SUBRULE atomicExpression (LABEL lhs);
                        MANY( CONSUME AdditionOperator; SUBRULE2 atomicExpression (LABEL rhs) )`
* `atomicExpression → CONSUME NumberLiteral`

The CST node of a rule maps each label to the ordered list of children
recorded under it (spec §3 "CST Node"); a label that matched nothing is the
empty list (spec design note: "absence is an empty sequence").
`CONSUME`, `SUBRULE` and `MANY` semantics are modelled from spec §4.3:
`CONSUME kind` requires the next token to match `kind` directly or via
category, else a `ParseError{expectedKind, gotToken, position}`; `MANY` stops
on a failed single-token lookahead and otherwise re-runs its body, where an
error after partial consumption propagates. -/

/-- CST node of the `atomicExpression` rule: the `NumberLiteral` label. -/
structure AtomicCst where
  NumberLiteral : List Token
deriving DecidableEq, Repr

/-- CST node of the `additionExpression` rule: labels `lhs`,
`AdditionOperator` (the default label of `CONSUME AdditionOperator`) and
`rhs`. -/
structure AdditionCst where
  lhs : List AtomicCst
  AdditionOperator : List Token
  rhs : List AtomicCst
deriving DecidableEq, Repr

/-- CST node of the `expression` rule: the `additionExpression` label. -/
structure ExpressionCst where
  additionExpression : List AdditionCst
deriving DecidableEq, Repr

/-- A parse failure (spec §7): a terminal mismatch carrying the expected
kind, the token position and the actual token (none at end of input), or
leftover input after the entry rule finished. -/
inductive ParseError where
  | mismatch (expected : TokenKind) (position : Nat) (actual : Option Token)
  | notAllInputParsed (position : Nat) (firstRedundant : Token)
deriving DecidableEq, Repr

/-- Rule `atomicExpression` (`src/calculator.js` line 78):
`CONSUME(NumberLiteral)`.  Takes the current token index and the remaining
tokens; returns the CST node, the next index and the remaining tokens. -/
def parseAtomicExpression (i : Nat) (ts : List Token) :
    Except ParseError (AtomicCst × Nat × List Token) :=
  match ts with
  | [] => .error (.mismatch .NumberLiteral i none)
  | t :: rest =>
    if tokenMatcher t .NumberLiteral then .ok (⟨[t]⟩, i + 1, rest)
    else .error (.mismatch .NumberLiteral i (some t))

theorem parseAtomicExpression_length {i : Nat} {ts : List Token}
    {a : AtomicCst} {j : Nat} {rest : List Token}
    (h : parseAtomicExpression i ts = .ok (a, j, rest)) :
    rest.length < ts.length := by
  cases ts with
  | nil => simp [parseAtomicExpression] at h
  | cons t ts0 =>
    simp only [parseAtomicExpression] at h
    split at h
    · simp only [Except.ok.injEq, Prod.mk.injEq] at h
      obtain ⟨-, -, h3⟩ := h
      subst h3
      simp
    · simp at h

/-- The `MANY` loop of `additionExpression` (`src/calculator.js` lines 70-75):
while the single-token lookahead sees an `AdditionOperator`-matching token,
`CONSUME(AdditionOperator)` then `SUBRULE2(atomicExpression, LABEL rhs)`;
returns the operator tokens and rhs nodes in matched order. -/
def parseManyTail (i : Nat) (ts : List Token) :
    Except ParseError (List Token × List AtomicCst × Nat × List Token) :=
  match ts with
  | [] => .ok ([], [], i, [])
  | t :: rest =>
    if tokenMatcher t .AdditionOperator then
      match hA : parseAtomicExpression (i + 1) rest with
      | .error e => .error e
      | .ok (r, j, rest2) =>
        match parseManyTail j rest2 with
        | .error e => .error e
        | .ok (ops, rhss, j2, rest3) => .ok (t :: ops, r :: rhss, j2, rest3)
    else .ok ([], [], i, t :: rest)
termination_by ts.length
decreasing_by
  have hlen := parseAtomicExpression_length hA
  have hc : (t :: rest).length = rest.length + 1 := List.length_cons t rest
  omega

/-- Rule `additionExpression` (`src/calculator.js` lines 68-76):
`SUBRULE(atomicExpression, LABEL lhs)` then the `MANY` loop. -/
def parseAdditionExpression (i : Nat) (ts : List Token) :
    Except ParseError (AdditionCst × Nat × List Token) :=
  match parseAtomicExpression i ts with
  | .error e => .error e
  | .ok (lhsNode, j, rest) =>
    match parseManyTail j rest with
    | .error e => .error e
    | .ok (ops, rhss, j2, rest2) => .ok (⟨[lhsNode], ops, rhss⟩, j2, rest2)

/-- Rule `expression` (`src/calculator.js` lines 61-63):
`SUBRULE(additionExpression)`. -/
def parseExpressionRule (i : Nat) (ts : List Token) :
    Except ParseError (ExpressionCst × Nat × List Token) :=
  match parseAdditionExpression i ts with
  | .error e => .error e
  | .ok (n, j, rest) => .ok (⟨[n]⟩, j, rest)

/-- `parse(tokens, entry)` with entry rule `expression`: runs the entry rule
on the whole token sequence and requires all input consumed (leftover tokens
are a parse error, spec §4.3/§7 — no partial tree is returned). -/
def parse (ts : List Token) : Except ParseError ExpressionCst :=
  match parseExpressionRule 0 ts with
  | .error e => .error e
  | .ok (n, j, rest) =>
    match rest with
    | [] => .ok n
    | t :: _ => .error (.notAllInputParsed j t)

/-- Modelled from the spec: the single shared parser instance
(`src/calculator.js` line 89) carries per-parse mutable cursor state; setting
the input resets the cursor before the entry rule runs (spec §5: per-parse
run-state, re-initialised for each fresh run). -/
structure ParserState where
  input : List Token
  currIdx : Nat
deriving DecidableEq, Repr

/-- Assigning a new token sequence to the shared parser instance resets the
cursor to the start. -/
def ParserState.setInput (_st : ParserState) (ts : List Token) : ParserState :=
  ⟨ts, 0⟩

/-- Parsing through the shared instance: set the input (resetting the
cursor), run the entry rule from the instance's cursor, and leave the final
cursor in the instance state. -/
def parseWith (st : ParserState) (ts : List Token) :
    Except ParseError ExpressionCst × ParserState :=
  let st1 := st.setInput ts
  match parseExpressionRule st1.currIdx st1.input with
  | .error e => (.error e, st1)
  | .ok (n, j, rest) =>
    match rest with
    | [] => (.ok n, ⟨st1.input, j⟩)
    | t :: _ => (.error (.notAllInputParsed j t), ⟨st1.input, j⟩)

/-! ## Interpreter

`CalculatorInterpreter` of `src/calculator.js` lines 95-133.  A visit may
produce no value (JavaScript `undefined`, e.g. visiting an absent label, or a
`values` table miss, or the `undefined`/`NaN` results of arithmetic on a
missing operand); such undefined results are modelled by `none`. -/

/-- The `values` table (`src/calculator.js` line 37): object-property lookup
by token image, `none` for any image outside the table (JS `undefined`). -/
def values (image : List Char) : Option Int :=
  if image = "one".toList then some 1
  else if image = "two".toList then some 2
  else if image = "three".toList then some 3
  else if image = "four".toList then some 4
  else none

/-- `atomicExpression(ctx)` (`src/calculator.js` lines 127-132): if the
`NumberLiteral` label is present (at least one element), look the first
token's image up in `values`; otherwise fall through and return `undefined`. -/
def visitAtomicExpression (ctx : AtomicCst) : Option Int :=
  match ctx.NumberLiteral with
  | [] => none
  | t :: _ => values t.image

/-- JS `result += rhsValue` where either operand may be undefined: the sum
when both are numbers, no numeric result (`undefined`/`NaN`) otherwise. -/
def combineAddition (result rhsValue : Option Int) : Option Int :=
  match result, rhsValue with
  | some r, some v => some (r + v)
  | _, _ => none

/-- `additionExpression(ctx)` (`src/calculator.js` lines 107-125):
`result = visit(ctx.lhs)` (visiting a label list visits its first element);
if the `rhs` label is present, for each rhs operand at index `idx`, visit it
and fetch `ctx.AdditionOperator[idx]`; when that operator matches `Plus`,
`result += rhsValue`.  An out-of-range operator access poisons the result
(JS exception), modelled as `none`. -/
def visitAdditionExpression (ctx : AdditionCst) : Option Int :=
  let result : Option Int :=
    match ctx.lhs with
    | [] => none
    | a :: _ => visitAtomicExpression a
  if ctx.rhs.isEmpty then result
  else
    ctx.rhs.enum.foldl (fun result p =>
      let rhsValue := visitAtomicExpression p.2
      match ctx.AdditionOperator[p.1]? with
      | none => none
      | some operator =>
        if tokenMatcher operator .Plus then combineAddition result rhsValue
        else result) result

/-- `expression(ctx)` (`src/calculator.js` lines 103-105):
`visit(ctx.additionExpression)`. -/
def visitExpression (ctx : ExpressionCst) : Option Int :=
  match ctx.additionExpression with
  | [] => none
  | a :: _ => visitAdditionExpression a

/-- The full pipeline: tokenize, parse with entry rule `expression`, visit.
`none` when lexing or parsing fails or the visit yields no value. -/
def interpret (text : String) : Option Int :=
  match tokenize text with
  | .error _ => none
  | .ok ts =>
    match parse ts with
    | .error _ => none
    | .ok cst => visitExpression cst

/-! ## Derived notions used in the statements -/

/-- The tokens consumed by the `MANY` loop, in matched order: each operator
followed by the `NumberLiteral` tokens of its right-hand operand. -/
def manyTokens : List Token → List AtomicCst → List Token
  | o :: os, r :: rs => o :: (r.NumberLiteral ++ manyTokens os rs)
  | _, _ => []

/-- All `atomicExpression` nodes of a parse tree (the `lhs` and `rhs`
children of each `additionExpression` node). -/
def atomicNodes (cst : ExpressionCst) : List AtomicCst :=
  (cst.additionExpression.map (fun a => a.lhs ++ a.rhs)).flatten

/-- A token as the lexer actually emits it: a leaf kind together with the
image its pattern matched. -/
def tokenWellFormed (t : Token) : Prop :=
  (t.tokenType = .Plus ∧ t.image = "plus".toList) ∨
  (t.tokenType = .One ∧ t.image = "one".toList) ∨
  (t.tokenType = .Two ∧ t.image = "two".toList) ∨
  (t.tokenType = .Three ∧ t.image = "three".toList) ∨
  (t.tokenType = .Four ∧ t.image = "four".toList)

/-- Sum of the `values` of all tokens of a sequence that match
`NumberLiteral` (zero for an image outside the table). -/
def numberValueSum (ts : List Token) : Int :=
  ((ts.filter (fun t => tokenMatcher t .NumberLiteral)).map
    (fun t => (values t.image).getD 0)).sum

/-! ## Lexer-output structure -/

theorem matchKind_leaf {k : TokenKind} {cs img rest : List Char} (pos : Nat)
    (hm : matchKind k cs = some (img, rest)) (hsk : isSkipped k = false) :
    tokenWellFormed ⟨k, img, pos⟩ := by
  cases k
  case WhiteSpace => simp [isSkipped] at hsk
  case NumberLiteral => simp [matchKind] at hm
  case AdditionOperator => simp [matchKind] at hm
  all_goals
    simp only [matchKind] at hm
    obtain ⟨h1, -⟩ := matchLiteral_some hm
    subst h1
    simp [tokenWellFormed]

theorem tokenizeAux_wf {cs : List Char} {pos : Nat} :
    ∀ {ts : List Token}, tokenizeAux cs pos = .ok ts → ∀ t ∈ ts, tokenWellFormed t := by
  induction cs, pos using tokenizeAux.induct with
  | case1 cs pos hemp =>
    intro ts h t ht
    rw [tokenizeAux, if_pos hemp] at h
    simp only [Except.ok.injEq] at h
    subst h
    simp at ht
  | case2 cs pos hemp hm =>
    intro ts h t ht
    rw [tokenizeAux, if_neg hemp] at h
    split at h
    · simp at h
    · next k img rest heq =>
      rw [hm] at heq
      simp at heq
  | case3 cs pos hemp k img rest hm e hrec ih =>
    intro ts h t ht
    rw [tokenizeAux, if_neg hemp] at h
    split at h
    · next heq =>
      rw [hm] at heq
      simp at heq
    · next k' img' rest' heq =>
      rw [hm] at heq
      injection heq with heq1
      injection heq1 with hk heq2
      injection heq2 with himg hrest
      subst hk; subst himg; subst hrest
      split at h
      · simp at h
      · next ts0 heq3 =>
        rw [hrec] at heq3
        simp at heq3
  | case4 cs pos hemp k img rest hm ts0 hrec ih =>
    intro ts h t ht
    rw [tokenizeAux, if_neg hemp] at h
    split at h
    · next heq =>
      rw [hm] at heq
      simp at heq
    · next k' img' rest' heq =>
      rw [hm] at heq
      injection heq with heq1
      injection heq1 with hk heq2
      injection heq2 with himg hrest
      subst hk; subst himg; subst hrest
      split at h
      · next heq3 =>
        rw [hrec] at heq3
        simp at heq3
      · next ts1 heq3 =>
        rw [hrec] at heq3
        injection heq3 with hts1
        subst hts1
        simp only [Except.ok.injEq] at h
        subst h
        cases hsk : isSkipped k with
        | true =>
          rw [if_pos hsk] at ht
          exact ih hrec t ht
        | false =>
          rw [if_neg (by simp [hsk])] at ht
          rcases List.mem_cons.1 ht with h1 | h1
          · subst h1
            exact matchKind_leaf pos (firstMatch_some hm).2 hsk
          · exact ih hrec t h1

theorem tokenizeAux_error {cs : List Char} {pos : Nat} :
    ∀ {e : LexError}, tokenizeAux cs pos = .error e →
      pos ≤ e.offset ∧ cs.drop (e.offset - pos) ≠ [] ∧
      firstMatch allTokens (cs.drop (e.offset - pos)) = none := by
  induction cs, pos using tokenizeAux.induct with
  | case1 cs pos hemp =>
    intro e h
    rw [tokenizeAux, if_pos hemp] at h
    simp at h
  | case2 cs pos hemp hm =>
    intro e h
    rw [tokenizeAux, if_neg hemp] at h
    split at h
    · injection h with h1
      subst h1
      refine ⟨Nat.le_refl _, ?_, ?_⟩
      · simpa [Nat.sub_self, List.isEmpty_iff] using hemp
      · simpa [Nat.sub_self] using hm
    · next k img rest heq =>
      rw [hm] at heq
      simp at heq
  | case3 cs pos hemp k img rest hm e0 hrec ih =>
    intro e h
    rw [tokenizeAux, if_neg hemp] at h
    split at h
    · next heq =>
      rw [hm] at heq
      simp at heq
    · next k' img' rest' heq =>
      rw [hm] at heq
      injection heq with heq1
      injection heq1 with hk heq2
      injection heq2 with himg hrest
      subst hk; subst himg; subst hrest
      split at h
      · next e1 heq3 =>
        injection h with he
        subst he
        obtain ⟨ih1, ih2, ih3⟩ := ih heq3
        have hcs : img ++ rest = cs := (matchKind_some (firstMatch_some hm).2).2
        have hsplit : e1.offset - pos = img.length + (e1.offset - (pos + img.length)) := by
          omega
        refine ⟨by omega, ?_, ?_⟩
        · rw [← hcs, hsplit, List.drop_append]
          exact ih2
        · rw [← hcs, hsplit, List.drop_append]
          exact ih3
      · next ts1 heq3 =>
        rw [hrec] at heq3
        simp at heq3
  | case4 cs pos hemp k img rest hm ts0 hrec ih =>
    intro e h
    rw [tokenizeAux, if_neg hemp] at h
    split at h
    · next heq =>
      rw [hm] at heq
      simp at heq
    · next k' img' rest' heq =>
      rw [hm] at heq
      injection heq with heq1
      injection heq1 with hk heq2
      injection heq2 with himg hrest
      subst hk; subst himg; subst hrest
      split at h
      · next heq3 =>
        rw [hrec] at heq3
        simp at heq3
      · simp at h

/-! ## Parser-output structure -/

theorem parseAtomicExpression_spec {i : Nat} {ts : List Token}
    {a : AtomicCst} {j : Nat} {rest : List Token}
    (h : parseAtomicExpression i ts = .ok (a, j, rest)) :
    ∃ t, ts = t :: rest ∧ a = ⟨[t]⟩ ∧ j = i + 1 ∧
      tokenMatcher t .NumberLiteral = true := by
  cases ts with
  | nil => simp [parseAtomicExpression] at h
  | cons t ts0 =>
    simp only [parseAtomicExpression] at h
    split at h
    · next hm =>
      simp only [Except.ok.injEq, Prod.mk.injEq] at h
      obtain ⟨h1, h2, h3⟩ := h
      exact ⟨t, by rw [h3], h1.symm, h2.symm, hm⟩
    · simp at h

theorem parseManyTail_spec {i : Nat} {ts : List Token} :
    ∀ {ops : List Token} {rhss : List AtomicCst} {j : Nat} {rem : List Token},
    parseManyTail i ts = .ok (ops, rhss, j, rem) →
    ops.length = rhss.length ∧
    ts = manyTokens ops rhss ++ rem ∧
    (∀ o ∈ ops, tokenMatcher o .AdditionOperator = true) ∧
    (∀ r ∈ rhss, ∃ t, r = ⟨[t]⟩ ∧ tokenMatcher t .NumberLiteral = true ∧ t ∈ ts) := by
  induction i, ts using parseManyTail.induct with
  | case1 i =>
    intro ops rhss j rem h
    simp only [parseManyTail, Except.ok.injEq, Prod.mk.injEq] at h
    obtain ⟨h1, h2, -, h4⟩ := h
    subst h1; subst h2; subst h4
    exact ⟨rfl, by simp [manyTokens], by simp, by simp⟩
  | case2 i t rest hm e hA =>
    intro ops rhss j rem h
    simp only [parseManyTail, hm, if_true] at h
    split at h
    · simp at h
    · next heq =>
      rw [hA] at heq
      simp at heq
  | case3 i t rest hm r j0 rest2 hA e hrec ih =>
    intro ops rhss j rem h
    simp only [parseManyTail, hm, if_true] at h
    split at h
    · next heq =>
      rw [hA] at heq
      simp at heq
    · next r' j' rest2' heq =>
      rw [hA] at heq
      injection heq with heq1
      injection heq1 with hr hjr
      injection hjr with hj hrest
      subst hr; subst hj; subst hrest
      split at h
      · simp at h
      · next heq2 =>
        rw [hrec] at heq2
        simp at heq2
  | case4 i t rest hm r j0 rest2 hA ops0 rhss0 j2 rest3 hrec ih =>
    intro ops rhss j rem h
    simp only [parseManyTail, hm, if_true] at h
    split at h
    · next heq =>
      rw [hA] at heq
      simp at heq
    · next r' j' rest2' heq =>
      rw [hA] at heq
      injection heq with heq1
      injection heq1 with hr hjr
      injection hjr with hj hrest
      subst hr; subst hj; subst hrest
      split at h
      · next heq2 =>
        rw [hrec] at heq2
        simp at heq2
      · next ops' rhss' j2' rest3' heq2 =>
        rw [hrec] at heq2
        injection heq2 with heq3
        injection heq3 with ho hrr
        injection hrr with hrh hjj
        injection hjj with hj2 hr3
        subst ho; subst hrh; subst hj2; subst hr3
        simp only [Except.ok.injEq, Prod.mk.injEq] at h
        obtain ⟨h1, h2, -, h4⟩ := h
        subst h1; subst h2; subst h4
        obtain ⟨hlen, hdecomp, hops, hrhss⟩ := ih hrec
        obtain ⟨t', hrest, hr, -, hmt'⟩ := parseAtomicExpression_spec hA
        constructor
        · simp [hlen]
        constructor
        · subst hr
          simp only [manyTokens, List.cons_append, List.singleton_append]
          rw [hrest, hdecomp]
          rfl
        constructor
        · intro o ho
          rcases List.mem_cons.1 ho with h | h
          · subst h; exact hm
          · exact hops o h
        · intro rr hrr
          rcases List.mem_cons.1 hrr with h | h
          · subst h
            exact ⟨t', hr, hmt', by rw [hrest]; simp⟩
          · obtain ⟨tt, h1, h2, h3⟩ := hrhss rr h
            exact ⟨tt, h1, h2, by rw [hrest]; simp; right; right; exact h3⟩
  | case5 i t rest hm =>
    intro ops rhss j rem h
    simp only [parseManyTail] at h
    rw [if_neg hm] at h
    simp only [Except.ok.injEq, Prod.mk.injEq] at h
    obtain ⟨h1, h2, -, h4⟩ := h
    subst h1; subst h2; subst h4
    exact ⟨rfl, by simp [manyTokens], by simp, by simp⟩

theorem parseAdditionExpression_spec {i : Nat} {ts : List Token}
    {node : AdditionCst} {j : Nat} {rem : List Token}
    (h : parseAdditionExpression i ts = .ok (node, j, rem)) :
    ∃ lhsTok,
      node.lhs = [⟨[lhsTok]⟩] ∧
      tokenMatcher lhsTok .NumberLiteral = true ∧
      node.AdditionOperator.length = node.rhs.length ∧
      ts = lhsTok :: (manyTokens node.AdditionOperator node.rhs ++ rem) ∧
      (∀ o ∈ node.AdditionOperator, tokenMatcher o .AdditionOperator = true) ∧
      (∀ r ∈ node.rhs, ∃ t, r = ⟨[t]⟩ ∧ tokenMatcher t .NumberLiteral = true ∧ t ∈ ts) := by
  unfold parseAdditionExpression at h
  split at h
  · simp at h
  · next a j0 rest hA =>
    split at h
    · simp at h
    · next ops rhss j2 rest2 hM =>
      simp only [Except.ok.injEq, Prod.mk.injEq] at h
      obtain ⟨h1, -, h3⟩ := h
      subst h1; subst h3
      obtain ⟨t0, hts, ha, -, hmt0⟩ := parseAtomicExpression_spec hA
      obtain ⟨hlen, hdecomp, hops, hrhss⟩ := parseManyTail_spec hM
      subst ha
      refine ⟨t0, rfl, hmt0, hlen, ?_, hops, ?_⟩
      · rw [hts, hdecomp]
      · intro r hr
        obtain ⟨tt, h1, h2, h3⟩ := hrhss r hr
        exact ⟨tt, h1, h2, by rw [hts]; exact List.mem_cons_of_mem _ h3⟩

theorem parse_spec {ts : List Token} {cst : ExpressionCst}
    (h : parse ts = .ok cst) :
    ∃ node,
      cst = ⟨[node]⟩ ∧
      (∃ lhsTok,
        node.lhs = [⟨[lhsTok]⟩] ∧
        tokenMatcher lhsTok .NumberLiteral = true ∧
        node.AdditionOperator.length = node.rhs.length ∧
        ts = lhsTok :: manyTokens node.AdditionOperator node.rhs ∧
        (∀ o ∈ node.AdditionOperator, tokenMatcher o .AdditionOperator = true) ∧
        (∀ r ∈ node.rhs, ∃ t, r = ⟨[t]⟩ ∧
          tokenMatcher t .NumberLiteral = true ∧ t ∈ ts)) := by
  unfold parse parseExpressionRule at h
  split at h
  · simp at h
  · next node j rest hA =>
    split at h
    · simp only [Except.ok.injEq] at h
      subst h
      split at hA
      · simp at hA
      · next node0 j0 rest0 hAdd =>
        simp only [Except.ok.injEq, Prod.mk.injEq] at hA
        obtain ⟨hA1, -, hA3⟩ := hA
        subst hA1
        subst hA3
        obtain ⟨t0, h1, h2, h3, h4, h5, h6⟩ := parseAdditionExpression_spec hAdd
        exact ⟨node0, rfl, t0, h1, h2, h3, by simpa using h4, h5, h6⟩
    · simp at h

/-! ## Visitor structure -/

theorem enumFrom_fold_zip (ops : List Token) (rs : List AtomicCst) :
    ∀ (n : Nat) (acc : Option Int), n + rs.length ≤ ops.length →
      (List.enumFrom n rs).foldl
        (fun result p =>
          let rhsValue := visitAtomicExpression p.2
          match ops[p.1]? with
          | none => none
          | some operator =>
            if tokenMatcher operator .Plus then combineAddition result rhsValue
            else result) acc
      = (rs.zip (ops.drop n)).foldl
          (fun result q =>
            if tokenMatcher q.2 .Plus then
              combineAddition result (visitAtomicExpression q.1)
            else result) acc := by
  induction rs with
  | nil => intro n acc h; simp [List.enumFrom]
  | cons r rs ih =>
    intro n acc h
    have hn : n < ops.length := by
      simp only [List.length_cons] at h
      omega
    have hget : ops[n]? = some ops[n] := List.getElem?_eq_getElem hn
    have hdrop : ops.drop n = ops[n] :: ops.drop (n + 1) := List.drop_eq_getElem_cons hn
    rw [hdrop]
    simp only [List.enumFrom, List.foldl_cons, List.zip_cons_cons, hget]
    exact ih (n + 1) _ (by simp only [List.length_cons] at h; omega)

theorem visitAdditionExpression_zip (ctx : AdditionCst)
    (hlen : ctx.rhs.length ≤ ctx.AdditionOperator.length) :
    visitAdditionExpression ctx =
      (ctx.rhs.zip ctx.AdditionOperator).foldl
        (fun result q =>
          if tokenMatcher q.2 .Plus then
            combineAddition result (visitAtomicExpression q.1)
          else result)
        (match ctx.lhs with
         | [] => none
         | a :: _ => visitAtomicExpression a) := by
  unfold visitAdditionExpression
  by_cases he : ctx.rhs.isEmpty
  · rw [if_pos he]
    rw [List.isEmpty_iff] at he
    rw [he]
    simp
  · rw [if_neg he]
    have := enumFrom_fold_zip ctx.AdditionOperator ctx.rhs 0
      (match ctx.lhs with
       | [] => none
       | a :: _ => visitAtomicExpression a)
      (by simpa using hlen)
    simpa [List.enum] using this

theorem plusToken_matchers {t : Token} (h : t.tokenType = .Plus) :
    tokenMatcher t .NumberLiteral = false ∧ tokenMatcher t .Plus = true ∧
    tokenMatcher t .AdditionOperator = true := by
  obtain ⟨k, img, off⟩ := t
  simp only at h
  subst h
  refine ⟨rfl, rfl, rfl⟩

theorem numberToken_matchers {t : Token} (hwf : tokenWellFormed t)
    (h : tokenMatcher t .NumberLiteral = true) :
    ∃ v : Int, values t.image = some v ∧
      t.image ∈ ["one".toList, "two".toList, "three".toList, "four".toList] := by
  rcases hwf with ⟨hk, hi⟩ | ⟨hk, hi⟩ | ⟨hk, hi⟩ | ⟨hk, hi⟩ | ⟨hk, hi⟩
  · exfalso
    rw [(plusToken_matchers hk).1] at h
    exact Bool.false_ne_true h
  · exact ⟨1, by rw [hi]; rfl, by rw [hi]; simp⟩
  · exact ⟨2, by rw [hi]; rfl, by rw [hi]; simp⟩
  · exact ⟨3, by rw [hi]; rfl, by rw [hi]; simp⟩
  · exact ⟨4, by rw [hi]; rfl, by rw [hi]; simp⟩

theorem operatorToken_is_plus {t : Token} (hwf : tokenWellFormed t)
    (h : tokenMatcher t .AdditionOperator = true) : t.tokenType = .Plus := by
  obtain ⟨k, img, off⟩ := t
  rcases hwf with ⟨hk, -⟩ | ⟨hk, -⟩ | ⟨hk, -⟩ | ⟨hk, -⟩ | ⟨hk, -⟩ <;>
    simp only at hk <;> subst hk
  · rfl
  all_goals simp [tokenMatcher, ancestors, ancestorsAux, categories] at h

theorem zip_fold_sum (ops : List Token) :
    ∀ (rhss : List AtomicCst) (acc : Int),
      ops.length = rhss.length →
      (∀ o ∈ ops, o.tokenType = .Plus) →
      (∀ r ∈ rhss, ∃ t v, r = ⟨[t]⟩ ∧ tokenMatcher t .NumberLiteral = true ∧
        values t.image = some v) →
      (rhss.zip ops).foldl
        (fun result q =>
          if tokenMatcher q.2 .Plus then
            combineAddition result (visitAtomicExpression q.1)
          else result) (some acc)
      = some (acc + numberValueSum (manyTokens ops rhss)) := by
  induction ops with
  | nil =>
    intro rhss acc hlen _ _
    have : rhss = [] := List.length_eq_zero.1 (by simpa using hlen.symm)
    subst this
    simp [numberValueSum, manyTokens]
  | cons o os ih =>
    intro rhss acc hlen hops hrhss
    cases rhss with
    | nil => simp at hlen
    | cons r rs =>
      obtain ⟨t, v, hr, hmt, hv⟩ := hrhss r (List.mem_cons_self _ _)
      have hop : o.tokenType = .Plus := hops o (List.mem_cons_self _ _)
      have hstep : (if tokenMatcher o .Plus then
          combineAddition (some acc) (visitAtomicExpression r)
          else some acc) = some (acc + v) := by
        rw [(plusToken_matchers hop).2.1, if_pos rfl, hr]
        simp [visitAtomicExpression, hv, combineAddition]
      rw [List.zip_cons_cons, List.foldl_cons]
      simp only [hstep]
      rw [ih rs (acc + v) (by simpa using hlen)
        (fun o' ho' => hops o' (List.mem_cons_of_mem _ ho'))
        (fun r' hr' => hrhss r' (List.mem_cons_of_mem _ hr'))]
      have hmany : numberValueSum (manyTokens (o :: os) (r :: rs)) =
          v + numberValueSum (manyTokens os rs) := by
        rw [hr]
        simp [manyTokens, numberValueSum, List.filter_cons, hmt,
          (plusToken_matchers hop).1, hv]
      rw [hmany]
      ring_nf

theorem mem_manyTokens_of_mem_ops :
    ∀ {ops : List Token} {rhss : List AtomicCst}, ops.length = rhss.length →
      ∀ o ∈ ops, o ∈ manyTokens ops rhss := by
  intro ops
  induction ops with
  | nil => simp
  | cons o os ih =>
    intro rhss hlen o' ho'
    cases rhss with
    | nil => simp at hlen
    | cons r rs =>
      rcases List.mem_cons.1 ho' with h | h
      · subst h
        simp [manyTokens]
      · simp only [manyTokens, List.mem_cons, List.mem_append]
        right; right
        exact ih (by simpa using hlen) o' h

/-! ## Texts built from leaf patterns and whitespace (for the round-trip) -/

/-- The images of the five declared leaf-kind patterns. -/
def leafPatterns : List (List Char) :=
  ["plus".toList, "one".toList, "two".toList, "three".toList, "four".toList]

/-- A text composed solely of declared leaf-kind patterns and whitespace
runs, in any interleaving. -/
inductive Interleaving : List Char → Prop where
  | nil : Interleaving []
  | word {w rest : List Char} :
      w ∈ leafPatterns → Interleaving rest → Interleaving (w ++ rest)
  | ws {w rest : List Char} :
      w ≠ [] → (∀ c ∈ w, isWsChar c = true) → Interleaving rest →
      Interleaving (w ++ rest)

/-- Ghost variant of the scan loop that keeps every match — including the
skipped whitespace — as a (kind, image) segment, in scanned order. -/
def tokenizeSegsAux (cs : List Char) (pos : Nat) :
    Except LexError (List (TokenKind × List Char)) :=
  if cs.isEmpty then .ok []
  else
    match hm : firstMatch allTokens cs with
    | none => .error ⟨pos⟩
    | some (k, img, rest) =>
      match tokenizeSegsAux rest (pos + img.length) with
      | .error e => .error e
      | .ok sgs => .ok ((k, img) :: sgs)
termination_by cs.length
decreasing_by
  exact firstMatch_length hm

theorem tokenizeAux_step {cs : List Char} {pos : Nat} {k : TokenKind}
    {img rest : List Char} (hne : cs.isEmpty = false)
    (hfm : firstMatch allTokens cs = some (k, img, rest)) :
    tokenizeAux cs pos =
      match tokenizeAux rest (pos + img.length) with
      | .error e => .error e
      | .ok ts => .ok (if isSkipped k then ts else ⟨k, img, pos⟩ :: ts) := by
  rw [tokenizeAux, if_neg (by simp [hne])]
  split
  · next heq =>
    rw [hfm] at heq
    simp at heq
  · next k' img' rest' heq =>
    rw [hfm] at heq
    injection heq with heq1
    injection heq1 with hk heq2
    injection heq2 with himg hrest
    subst hk; subst himg; subst hrest
    rfl

theorem tokenizeSegsAux_step {cs : List Char} {pos : Nat} {k : TokenKind}
    {img rest : List Char} (hne : cs.isEmpty = false)
    (hfm : firstMatch allTokens cs = some (k, img, rest)) :
    tokenizeSegsAux cs pos =
      match tokenizeSegsAux rest (pos + img.length) with
      | .error e => .error e
      | .ok sgs => .ok ((k, img) :: sgs) := by
  rw [tokenizeSegsAux, if_neg (by simp [hne])]
  split
  · next heq =>
    rw [hfm] at heq
    simp at heq
  · next k' img' rest' heq =>
    rw [hfm] at heq
    injection heq with heq1
    injection heq1 with hk heq2
    injection heq2 with himg hrest
    subst hk; subst himg; subst hrest
    rfl

theorem leafPattern_head {w : List Char} (hw : w ∈ leafPatterns) :
    ∃ c w', w = c :: w' ∧ isWsChar c = false := by
  simp only [leafPatterns, List.mem_cons, List.not_mem_nil, or_false] at hw
  rcases hw with h | h | h | h | h <;> subst h
  · exact ⟨'p', _, rfl, by decide⟩
  · exact ⟨'o', _, rfl, by decide⟩
  · exact ⟨'t', _, rfl, by decide⟩
  · exact ⟨'t', _, rfl, by decide⟩
  · exact ⟨'f', _, rfl, by decide⟩

theorem firstMatch_word (w rest : List Char) (hw : w ∈ leafPatterns) :
    ∃ k, firstMatch allTokens (w ++ rest) = some (k, w, rest) ∧
      isSkipped k = false := by
  simp only [leafPatterns, List.mem_cons, List.not_mem_nil, or_false] at hw
  rcases hw with h | h | h | h | h <;> subst h
  · exact ⟨.Plus, by
      simp [firstMatch, allTokens, matchKind, matchLiteral, isWsChar,
        List.isPrefixOf, List.takeWhile], rfl⟩
  · exact ⟨.One, by
      simp [firstMatch, allTokens, matchKind, matchLiteral, isWsChar,
        List.isPrefixOf, List.takeWhile], rfl⟩
  · exact ⟨.Two, by
      simp [firstMatch, allTokens, matchKind, matchLiteral, isWsChar,
        List.isPrefixOf, List.takeWhile], rfl⟩
  · exact ⟨.Three, by
      simp [firstMatch, allTokens, matchKind, matchLiteral, isWsChar,
        List.isPrefixOf, List.takeWhile], rfl⟩
  · exact ⟨.Four, by
      simp [firstMatch, allTokens, matchKind, matchLiteral, isWsChar,
        List.isPrefixOf, List.takeWhile], rfl⟩

theorem firstMatch_ws {c : Char} {l : List Char} (hc : isWsChar c = true) :
    firstMatch allTokens (c :: l) =
      some (.WhiteSpace, (c :: l).takeWhile isWsChar, (c :: l).dropWhile isWsChar) := by
  simp [firstMatch, allTokens, matchKind, List.takeWhile_cons, hc]

theorem dropWhile_append_of_all {p : Char → Bool} {w rest : List Char}
    (hw : ∀ c ∈ w, p c = true) :
    (w ++ rest).dropWhile p = rest.dropWhile p := by
  induction w with
  | nil => rfl
  | cons a w' ih =>
    have ha : p a = true := hw a (List.mem_cons_self _ _)
    simp only [List.cons_append, List.dropWhile_cons, ha, if_true]
    exact ih (fun c hc => hw c (List.mem_cons_of_mem _ hc))

theorem interleaving_dropWhile {cs : List Char} (h : Interleaving cs) :
    Interleaving (cs.dropWhile isWsChar) := by
  induction h with
  | nil => exact .nil
  | word hw hrest ih =>
    next w rest =>
    obtain ⟨c, w', hw', hc⟩ := leafPattern_head hw
    have : (w ++ rest).dropWhile isWsChar = w ++ rest := by
      rw [hw']
      simp [List.dropWhile_cons, hc]
    rw [this]
    exact .word hw hrest
  | ws hne hws hrest ih =>
    next w rest =>
    rw [dropWhile_append_of_all hws]
    exact ih

theorem interleaving_tokenize :
    ∀ (n : Nat) (cs : List Char), cs.length ≤ n → Interleaving cs → ∀ pos : Nat,
      ∃ sgs ts, tokenizeSegsAux cs pos = .ok sgs ∧ tokenizeAux cs pos = .ok ts ∧
        (sgs.map Prod.snd).flatten = cs ∧
        ts.map Token.image = (sgs.filter (fun s => !isSkipped s.1)).map Prod.snd ∧
        (∀ s ∈ sgs, isSkipped s.1 = true → ∀ c ∈ s.2, isWsChar c = true) := by
  intro n
  induction n with
  | zero =>
    intro cs hlen h pos
    have hnil : cs = [] := List.length_eq_zero.1 (Nat.le_zero.1 hlen)
    subst hnil
    exact ⟨[], [], by simp [tokenizeSegsAux], by simp [tokenizeAux], rfl, rfl, by simp⟩
  | succ n ih =>
    intro cs hlen h pos
    cases h with
    | nil =>
      exact ⟨[], [], by simp [tokenizeSegsAux], by simp [tokenizeAux], rfl, rfl, by simp⟩
    | word hw hrest =>
      next w rest =>
      obtain ⟨k, hfm, hsk⟩ := firstMatch_word w rest hw
      obtain ⟨c, w', hw', hc⟩ := leafPattern_head hw
      have hne : (w ++ rest).isEmpty = false := by rw [hw']; rfl
      have hrestlen : rest.length ≤ n := by
        rw [List.length_append, hw'] at hlen
        simp only [List.length_cons] at hlen
        omega
      obtain ⟨sgs', ts', hs', ht', hjoin', himg', hws'⟩ :=
        ih rest hrestlen hrest (pos + w.length)
      refine ⟨(k, w) :: sgs', ⟨k, w, pos⟩ :: ts', ?_, ?_, ?_, ?_, ?_⟩
      · rw [tokenizeSegsAux_step hne hfm, hs']
      · rw [tokenizeAux_step hne hfm, ht']
        simp [hsk]
      · simp [hjoin']
      · simp [List.filter_cons, hsk, himg']
      · intro s hs hskip
        rcases List.mem_cons.1 hs with h1 | h1
        · subst h1
          rw [hsk] at hskip
          exact absurd hskip (by simp)
        · exact hws' s h1 hskip
    | ws hne0 hws0 hrest =>
      next w rest =>
      obtain ⟨c, w', hw'⟩ := List.exists_cons_of_ne_nil hne0
      have hc : isWsChar c = true := hws0 c (by rw [hw']; exact List.mem_cons_self _ _)
      have hcons : w ++ rest = c :: (w' ++ rest) := by rw [hw']; rfl
      have hfm' : firstMatch allTokens (w ++ rest) =
          some (.WhiteSpace, (w ++ rest).takeWhile isWsChar,
            (w ++ rest).dropWhile isWsChar) := by
        rw [hcons]
        exact firstMatch_ws hc
      have htake_ne : (w ++ rest).takeWhile isWsChar ≠ [] := by
        rw [hcons]
        simp [List.takeWhile_cons, hc]
      have happ : (w ++ rest).takeWhile isWsChar ++ (w ++ rest).dropWhile isWsChar
          = w ++ rest := List.takeWhile_append_dropWhile _ _
      have hdroplen : ((w ++ rest).dropWhile isWsChar).length ≤ n := by
        have hl := congrArg List.length happ
        simp only [List.length_append] at hl
        have h1 : ((w ++ rest).takeWhile isWsChar).length ≠ 0 := by
          simpa using htake_ne
        simp only [List.length_append] at hlen
        omega
      have hint : Interleaving ((w ++ rest).dropWhile isWsChar) :=
        interleaving_dropWhile (Interleaving.ws hne0 hws0 hrest)
      obtain ⟨sgs', ts', hs', ht', hjoin', himg', hws'⟩ :=
        ih _ hdroplen hint (pos + ((w ++ rest).takeWhile isWsChar).length)
      have hnecs : (w ++ rest).isEmpty = false := by rw [hcons]; rfl
      refine ⟨(.WhiteSpace, (w ++ rest).takeWhile isWsChar) :: sgs', ts',
        ?_, ?_, ?_, ?_, ?_⟩
      · rw [tokenizeSegsAux_step hnecs hfm', hs']
      · rw [tokenizeAux_step hnecs hfm', ht']
        simp [isSkipped]
      · simp only [List.map_cons, List.flatten_cons, hjoin']
        exact happ
      · simp [List.filter_cons, isSkipped, himg']
      · intro s hs hskip
        rcases List.mem_cons.1 hs with h1 | h1
        · subst h1
          intro ch hch
          exact List.mem_takeWhile_imp hch
        · exact hws' s h1 hskip

/-- C1: end-to-end evaluation of the pipeline — visiting the parse of the
tokenization of `"one plus two"` yields 3, of `"four plus three plus one"`
yields 8 (accumulated left-associatively), and of the single-operand text
`"two"` yields 2, where in the no-operator case the `additionExpression`
visit returns the lhs value unchanged because the `rhs` label is absent. -/
theorem c1_pipeline_end_to_end :
    interpret "one plus two" = some 3 ∧
    interpret "four plus three plus one" = some 8 ∧
    interpret "two" = some 2 ∧
    (∃ node : AdditionCst,
      tokenize "two" = .ok [⟨.Two, "two".toList, 0⟩] ∧
      parse [⟨.Two, "two".toList, 0⟩] = .ok ⟨[node]⟩ ∧
      node.rhs = [] ∧
      visitAdditionExpression node =
        (match node.lhs with
         | [] => none
         | a :: _ => visitAtomicExpression a)) := by
  refine ⟨?_, ?_, ?_, ⟨⟨[⟨[⟨.Two, "two".toList, 0⟩]⟩], [], []⟩, ?_, ?_, rfl, rfl⟩⟩
  · simp [interpret, tokenize, tokenizeAux, allTokens, matchKind, matchLiteral, isWsChar,
      firstMatch, isSkipped, parse, parseExpressionRule, parseAdditionExpression,
      parseAtomicExpression, parseManyTail, tokenMatcher, ancestors, ancestorsAux, categories,
      visitExpression, visitAdditionExpression, visitAtomicExpression, values, combineAddition,
      List.enum, List.enumFrom]
  · simp [interpret, tokenize, tokenizeAux, allTokens, matchKind, matchLiteral, isWsChar,
      firstMatch, isSkipped, parse, parseExpressionRule, parseAdditionExpression,
      parseAtomicExpression, parseManyTail, tokenMatcher, ancestors, ancestorsAux, categories,
      visitExpression, visitAdditionExpression, visitAtomicExpression, values, combineAddition,
      List.enum, List.enumFrom]
  · simp [interpret, tokenize, tokenizeAux, allTokens, matchKind, matchLiteral, isWsChar,
      firstMatch, isSkipped, parse, parseExpressionRule, parseAdditionExpression,
      parseAtomicExpression, parseManyTail, tokenMatcher, ancestors, ancestorsAux, categories,
      visitExpression, visitAdditionExpression, visitAtomicExpression, values, combineAddition,
      List.enum, List.enumFrom]
  · simp [tokenize, tokenizeAux, allTokens, matchKind, matchLiteral, isWsChar, firstMatch,
      isSkipped]
  · simp [parse, parseExpressionRule, parseAdditionExpression, parseAtomicExpression,
      parseManyTail, tokenMatcher, ancestors, ancestorsAux, categories]

/-- C2: for every CST node produced by the `additionExpression` rule, the
node carries exactly as many `AdditionOperator` tokens as `rhs` children, and
the visitor's result equals the lhs value combined with the rhs values in
recorded order, pairing the operator token at index `i` with the rhs operand
at index `i` (expressed by folding over `rhs.zip AdditionOperator`). -/
theorem c2_operator_operand_pairing :
    ∀ (i : Nat) (ts : List Token) (node : AdditionCst) (j : Nat) (rem : List Token),
      parseAdditionExpression i ts = .ok (node, j, rem) →
      node.AdditionOperator.length = node.rhs.length ∧
      visitAdditionExpression node =
        (node.rhs.zip node.AdditionOperator).foldl
          (fun result q =>
            if tokenMatcher q.2 .Plus then
              combineAddition result (visitAtomicExpression q.1)
            else result)
          (match node.lhs with
           | [] => none
           | a :: _ => visitAtomicExpression a) := by
  intro i ts node j rem h
  obtain ⟨t0, -, -, h3, -, -, -⟩ := parseAdditionExpression_spec h
  exact ⟨h3, visitAdditionExpression_zip node (le_of_eq h3.symm)⟩

/-- Witness for C2 at the parse of `one plus two`'s token sequence. -/
theorem c2_operator_operand_pairing_witness :
    ([⟨.Plus, "plus".toList, 4⟩] : List Token).length =
      ([⟨[⟨.Two, "two".toList, 9⟩]⟩] : List AtomicCst).length ∧
    visitAdditionExpression
        ⟨[⟨[⟨.One, "one".toList, 0⟩]⟩], [⟨.Plus, "plus".toList, 4⟩],
          [⟨[⟨.Two, "two".toList, 9⟩]⟩]⟩ =
      (([⟨[⟨.Two, "two".toList, 9⟩]⟩] : List AtomicCst).zip
          ([⟨.Plus, "plus".toList, 4⟩] : List Token)).foldl
        (fun result q =>
          if tokenMatcher q.2 .Plus then
            combineAddition result (visitAtomicExpression q.1)
          else result)
        (match ([⟨[⟨.One, "one".toList, 0⟩]⟩] : List AtomicCst) with
         | [] => none
         | a :: _ => visitAtomicExpression a) :=
  c2_operator_operand_pairing 0
    [⟨.One, "one".toList, 0⟩, ⟨.Plus, "plus".toList, 4⟩, ⟨.Two, "two".toList, 9⟩]
    ⟨[⟨[⟨.One, "one".toList, 0⟩]⟩], [⟨.Plus, "plus".toList, 4⟩],
      [⟨[⟨.Two, "two".toList, 9⟩]⟩]⟩ 3 []
    (by simp [parseAdditionExpression, parseAtomicExpression, parseManyTail, tokenMatcher,
      ancestors, ancestorsAux, categories])

/-- C3: `tokenize` fails with a `LexError` exactly at a position where no
declared kind's pattern matches — in particular `tokenize "one & two"` fails
at the unmatched `&` (offset 4) — and on failure only the error is returned,
never a partial token sequence (the result type returns either an error or
the full sequence). -/
theorem c3_lex_error :
    tokenize "one & two" = .error ⟨4⟩ ∧
    (∀ (cs : List Char) (pos : Nat) (e : LexError),
      tokenizeAux cs pos = .error e →
        pos ≤ e.offset ∧
        cs.drop (e.offset - pos) ≠ [] ∧
        firstMatch allTokens (cs.drop (e.offset - pos)) = none) := by
  refine ⟨?_, fun cs pos e h => tokenizeAux_error h⟩
  simp [tokenize, tokenizeAux, allTokens, matchKind, matchLiteral, isWsChar, firstMatch,
    isSkipped]

/-- Witness for C3 at the unmatched text `"&"`. -/
theorem c3_lex_error_witness :
    0 ≤ (⟨0⟩ : LexError).offset ∧
    "&".toList.drop 0 ≠ [] ∧
    firstMatch allTokens ("&".toList.drop 0) = none :=
  c3_lex_error.2 "&".toList 0 ⟨0⟩
    (by simp [tokenizeAux, allTokens, matchKind, matchLiteral, isWsChar, firstMatch])

/-- C4: `parse` fails with a `ParseError` when an expected terminal does not
match at the current token position — in particular parsing the tokens of
`"plus one"` fails because the left operand is missing before the operator —
and the error carries the expected kind, the actual token and the position;
the result type returns either the error or the full tree, never a partial
tree. -/
theorem c4_parse_error :
    (tokenize "plus one" = .ok [⟨.Plus, "plus".toList, 0⟩, ⟨.One, "one".toList, 5⟩] ∧
     parse [⟨.Plus, "plus".toList, 0⟩, ⟨.One, "one".toList, 5⟩] =
       .error (.mismatch .NumberLiteral 0 (some ⟨.Plus, "plus".toList, 0⟩))) ∧
    (∀ (i : Nat) (ts : List Token) (e : ParseError),
      parseAtomicExpression i ts = .error e ↔
        (e = .mismatch .NumberLiteral i ts.head? ∧
         ∀ t, ts.head? = some t → tokenMatcher t .NumberLiteral = false)) := by
  constructor
  · constructor
    · simp [tokenize, tokenizeAux, allTokens, matchKind, matchLiteral, isWsChar, firstMatch,
        isSkipped]
    · simp [parse, parseExpressionRule, parseAdditionExpression, parseAtomicExpression,
        tokenMatcher, ancestors, ancestorsAux, categories]
  · intro i ts e
    cases ts with
    | nil =>
      simp only [parseAtomicExpression, List.head?_nil, Except.error.injEq]
      constructor
      · intro h
        exact ⟨h.symm, by simp⟩
      · rintro ⟨h, -⟩
        exact h.symm
    | cons t ts0 =>
      by_cases hm : tokenMatcher t .NumberLiteral = true
      · rw [show parseAtomicExpression i (t :: ts0) =
            .ok (⟨[t]⟩, i + 1, ts0) by simp [parseAtomicExpression, hm]]
        constructor
        · intro h
          simp at h
        · rintro ⟨-, h2⟩
          rw [h2 t rfl] at hm
          exact absurd hm (by simp)
      · have hm' : tokenMatcher t .NumberLiteral = false := by
          simpa using hm
        rw [show parseAtomicExpression i (t :: ts0) =
            .error (.mismatch .NumberLiteral i (some t)) by
          simp [parseAtomicExpression, hm']]
        simp only [List.head?_cons, Except.error.injEq]
        constructor
        · intro h
          refine ⟨h.symm, ?_⟩
          intro t' ht'
          injection ht' with ht'
          subst ht'
          exact hm'
        · rintro ⟨h, -⟩
          exact h.symm

/-- Witness for C4: the concrete mismatch of the general characterisation,
at position 0 of the tokens of `"plus one"`. -/
theorem c4_parse_error_witness :
    parseAtomicExpression 0 [⟨.Plus, "plus".toList, 0⟩, ⟨.One, "one".toList, 5⟩] =
      .error (.mismatch .NumberLiteral 0 (some ⟨.Plus, "plus".toList, 0⟩)) :=
  (c4_parse_error.2 0 [⟨.Plus, "plus".toList, 0⟩, ⟨.One, "one".toList, 5⟩]
    (.mismatch .NumberLiteral 0 (some ⟨.Plus, "plus".toList, 0⟩))).2
    ⟨rfl, by
      intro t ht
      injection ht with ht
      subst ht
      rfl⟩

/-- C5: `tokenMatcher` (categoryMatch) returns true for a token instance and
a kind iff the instance's leaf kind equals that kind or transitively lists it
among its categories — so a `Plus` token matches `AdditionOperator`, each of
`One`..`Four` matches `NumberLiteral`, and no token matches a kind outside
its leaf kind and its category ancestors. -/
theorem c5_category_match :
    (∀ (t : Token) (k : TokenKind),
      tokenMatcher t k = true ↔ (t.tokenType = k ∨ k ∈ ancestors t.tokenType)) ∧
    (∀ t : Token,
      (tokenMatcher t .AdditionOperator = true ↔
        (t.tokenType = .Plus ∨ t.tokenType = .AdditionOperator)) ∧
      (tokenMatcher t .NumberLiteral = true ↔
        (t.tokenType = .One ∨ t.tokenType = .Two ∨ t.tokenType = .Three ∨
         t.tokenType = .Four ∨ t.tokenType = .NumberLiteral))) := by
  constructor
  · intro t k
    obtain ⟨k', img, off⟩ := t
    cases k' <;> cases k <;>
      simp [tokenMatcher, ancestors, ancestorsAux, categories]
  · intro t
    obtain ⟨k', img, off⟩ := t
    constructor <;>
      (cases k' <;> simp [tokenMatcher, ancestors, ancestorsAux, categories])

/-- Witness for C5: a `Plus` token matches `AdditionOperator`. -/
theorem c5_category_match_witness :
    tokenMatcher ⟨.Plus, "plus".toList, 0⟩ .AdditionOperator = true :=
  (c5_category_match.2 ⟨.Plus, "plus".toList, 0⟩).1.2 (Or.inl rfl)

/-- C6: every token instance in `tokenize`'s output has a concrete leaf
kind (`Plus`, `One`, `Two`, `Three` or `Four`): the abstract kinds with
pattern `NA` never themselves match text, and `WhiteSpace` matches are
discarded rather than emitted. -/
theorem c6_only_leaf_kinds_emitted :
    (∀ (text : String) (ts : List Token), tokenize text = .ok ts →
      ∀ t ∈ ts,
        t.tokenType ∈ ([.Plus, .One, .Two, .Three, .Four] : List TokenKind) ∧
        t.tokenType ≠ .WhiteSpace ∧ t.tokenType ≠ .NumberLiteral ∧
        t.tokenType ≠ .AdditionOperator) ∧
    (∀ cs : List Char,
      matchKind .NumberLiteral cs = none ∧ matchKind .AdditionOperator cs = none) := by
  constructor
  · intro text ts h t ht
    have hwf := tokenizeAux_wf h t ht
    rcases hwf with ⟨hk, -⟩ | ⟨hk, -⟩ | ⟨hk, -⟩ | ⟨hk, -⟩ | ⟨hk, -⟩ <;> simp [hk]
  · intro cs
    exact ⟨rfl, rfl⟩

/-- Witness for C6 at `"one plus two"`. -/
theorem c6_only_leaf_kinds_emitted_witness :
    (⟨.Plus, "plus".toList, 4⟩ : Token).tokenType ∈
        ([.Plus, .One, .Two, .Three, .Four] : List TokenKind) ∧
      (⟨.Plus, "plus".toList, 4⟩ : Token).tokenType ≠ .WhiteSpace ∧
      (⟨.Plus, "plus".toList, 4⟩ : Token).tokenType ≠ .NumberLiteral ∧
      (⟨.Plus, "plus".toList, 4⟩ : Token).tokenType ≠ .AdditionOperator :=
  c6_only_leaf_kinds_emitted.1 "one plus two"
    [⟨.One, "one".toList, 0⟩, ⟨.Plus, "plus".toList, 4⟩, ⟨.Two, "two".toList, 9⟩]
    (by simp [tokenize, tokenizeAux, allTokens, matchKind, matchLiteral, isWsChar,
      firstMatch, isSkipped])
    ⟨.Plus, "plus".toList, 4⟩ (by simp)

/-- C8: parsing is deterministic and free of hidden cross-parse state —
running the shared parser instance on the same token sequence, from any two
instance states (in particular the state left behind by a previous parse of
the same sequence), yields the same result, which is the pure `parse`. -/
theorem c8_parse_deterministic (st1 st2 : ParserState) (ts : List Token) :
    (parseWith st1 ts).1 = (parseWith st2 ts).1 ∧
    (parseWith (parseWith st1 ts).2 ts).1 = (parseWith st1 ts).1 ∧
    (parseWith st1 ts).1 = parse ts := by
  have hp : ∀ st : ParserState, (parseWith st ts).1 = parse ts := by
    intro st
    cases hE : parseExpressionRule 0 ts with
    | error e => simp [parseWith, parse, ParserState.setInput, hE]
    | ok v =>
      obtain ⟨n, j, rest⟩ := v
      cases rest <;> simp [parseWith, parse, ParserState.setInput, hE]
  exact ⟨(hp st1).trans (hp st2).symm,
        (hp _).trans (hp st1).symm, hp st1⟩

/-- Witness for C8: parsing the tokens of `one plus two` through the shared
instance from two different leftover states gives the same result. -/
theorem c8_parse_deterministic_witness :
    (parseWith ⟨[], 7⟩
      [⟨.One, "one".toList, 0⟩, ⟨.Plus, "plus".toList, 4⟩, ⟨.Two, "two".toList, 9⟩]).1 =
    (parseWith ⟨[⟨.Four, "four".toList, 0⟩], 0⟩
      [⟨.One, "one".toList, 0⟩, ⟨.Plus, "plus".toList, 4⟩, ⟨.Two, "two".toList, 9⟩]).1 :=
  (c8_parse_deterministic ⟨[], 7⟩ ⟨[⟨.Four, "four".toList, 0⟩], 0⟩
    [⟨.One, "one".toList, 0⟩, ⟨.Plus, "plus".toList, 4⟩, ⟨.Two, "two".toList, 9⟩]).1

/-- C9: for every CST node produced by the `atomicExpression` rule in a full
pipeline run, the `NumberLiteral` label is present with a token whose image
is one of `one`, `two`, `three`, `four`, so the `values` lookup in the
`atomicExpression` visit is always defined and the implicit
undefined-returning branch (absent label) is unreachable. -/
theorem c9_values_lookup_defined :
    ∀ (text : String) (ts : List Token) (cst : ExpressionCst),
      tokenize text = .ok ts → parse ts = .ok cst →
      ∀ node ∈ atomicNodes cst,
        node.NumberLiteral ≠ [] ∧
        ∃ t, node.NumberLiteral = [t] ∧
          t.image ∈ ["one".toList, "two".toList, "three".toList, "four".toList] ∧
          values t.image ≠ none ∧
          visitAtomicExpression node = values t.image := by
  intro text ts cst hlex hparse node hnode
  obtain ⟨anode, hcst, t0, hlhs, hmt0, hlen, hts, hops, hrhss⟩ := parse_spec hparse
  subst hcst
  rw [atomicNodes] at hnode
  simp only [List.map_cons, List.map_nil, List.flatten_cons, List.flatten_nil,
    List.append_nil, List.mem_append] at hnode
  have hnode' : (∃ t, node = AtomicCst.mk [t] ∧ tokenMatcher t .NumberLiteral = true ∧
      t ∈ ts) := by
    rcases hnode with h | h
    · rw [hlhs] at h
      simp only [List.mem_singleton] at h
      exact ⟨t0, h, hmt0, by rw [hts]; exact List.mem_cons_self _ _⟩
    · obtain ⟨t, h1, h2, h3⟩ := hrhss node h
      exact ⟨t, h1, h2, h3⟩
  obtain ⟨t, hnodeEq, hmt, htmem⟩ := hnode'
  have hwf := tokenizeAux_wf hlex t htmem
  obtain ⟨v, hv, himg⟩ := numberToken_matchers hwf hmt
  subst hnodeEq
  refine ⟨by simp, t, rfl, himg, by simp [hv], rfl⟩

/-- Witness for C9 at `"one plus two"`. -/
theorem c9_values_lookup_defined_witness :
    (⟨[⟨.Two, "two".toList, 9⟩]⟩ : AtomicCst).NumberLiteral ≠ [] ∧
    ∃ t, (⟨[⟨.Two, "two".toList, 9⟩]⟩ : AtomicCst).NumberLiteral = [t] ∧
      t.image ∈ ["one".toList, "two".toList, "three".toList, "four".toList] ∧
      values t.image ≠ none ∧
      visitAtomicExpression ⟨[⟨.Two, "two".toList, 9⟩]⟩ = values t.image :=
  c9_values_lookup_defined "one plus two"
    [⟨.One, "one".toList, 0⟩, ⟨.Plus, "plus".toList, 4⟩, ⟨.Two, "two".toList, 9⟩]
    ⟨[⟨[⟨[⟨.One, "one".toList, 0⟩]⟩], [⟨.Plus, "plus".toList, 4⟩],
      [⟨[⟨.Two, "two".toList, 9⟩]⟩]⟩]⟩
    (by simp [tokenize, tokenizeAux, allTokens, matchKind, matchLiteral, isWsChar,
      firstMatch, isSkipped])
    (by simp [parse, parseExpressionRule, parseAdditionExpression, parseAtomicExpression,
      parseManyTail, tokenMatcher, ancestors, ancestorsAux, categories])
    ⟨[⟨.Two, "two".toList, 9⟩]⟩
    (by simp [atomicNodes])

/-- C10: for every text accepted by the full pipeline, the interpreter's
result equals the sum of the numeric values of all `NumberLiteral`-matching
tokens of the token sequence, and that sum is independent of the order of
the tokens. -/
theorem c10_result_is_number_token_sum :
    ∀ (text : String) (ts : List Token) (cst : ExpressionCst),
      tokenize text = .ok ts → parse ts = .ok cst →
      visitExpression cst = some (numberValueSum ts) ∧
      ∀ ts' : List Token, ts.Perm ts' → numberValueSum ts' = numberValueSum ts := by
  intro text ts cst hlex hparse
  constructor
  · obtain ⟨anode, hcst, t0, hlhs, hmt0, hlen, hts, hops, hrhss⟩ := parse_spec hparse
    subst hcst
    have hv : visitExpression ⟨[anode]⟩ = visitAdditionExpression anode := rfl
    rw [hv, visitAdditionExpression_zip anode (le_of_eq hlen.symm), hlhs]
    have hwf0 : tokenWellFormed t0 :=
      tokenizeAux_wf hlex t0 (by rw [hts]; exact List.mem_cons_self _ _)
    obtain ⟨v0, hv0, -⟩ := numberToken_matchers hwf0 hmt0
    rw [show (match ([⟨[t0]⟩] : List AtomicCst) with
         | [] => none
         | a :: _ => visitAtomicExpression a) = visitAtomicExpression ⟨[t0]⟩ from rfl]
    rw [show visitAtomicExpression ⟨[t0]⟩ = some v0 by simp [visitAtomicExpression, hv0]]
    rw [zip_fold_sum anode.AdditionOperator anode.rhs v0 hlen
      (fun o ho => operatorToken_is_plus
        (tokenizeAux_wf hlex o (by
          rw [hts]
          exact List.mem_cons_of_mem _ (mem_manyTokens_of_mem_ops hlen o ho)))
        (hops o ho))
      (fun r hr => by
        obtain ⟨t, h1, h2, h3⟩ := hrhss r hr
        obtain ⟨v, hv, -⟩ := numberToken_matchers (tokenizeAux_wf hlex t h3) h2
        exact ⟨t, v, h1, h2, hv⟩)]
    rw [show numberValueSum ts =
        v0 + numberValueSum (manyTokens anode.AdditionOperator anode.rhs) by
      rw [hts]
      simp [numberValueSum, List.filter_cons, hmt0, hv0]]
  · intro ts' hperm
    unfold numberValueSum
    exact (((hperm.filter _).map _).sum_eq).symm

/-- Witness for C10 at `"one plus two"`. -/
theorem c10_result_is_number_token_sum_witness :
    visitExpression
        ⟨[⟨[⟨[⟨.One, "one".toList, 0⟩]⟩], [⟨.Plus, "plus".toList, 4⟩],
          [⟨[⟨.Two, "two".toList, 9⟩]⟩]⟩]⟩ =
      some (numberValueSum
        [⟨.One, "one".toList, 0⟩, ⟨.Plus, "plus".toList, 4⟩, ⟨.Two, "two".toList, 9⟩]) :=
  (c10_result_is_number_token_sum "one plus two"
    [⟨.One, "one".toList, 0⟩, ⟨.Plus, "plus".toList, 4⟩, ⟨.Two, "two".toList, 9⟩]
    ⟨[⟨[⟨[⟨.One, "one".toList, 0⟩]⟩], [⟨.Plus, "plus".toList, 4⟩],
      [⟨[⟨.Two, "two".toList, 9⟩]⟩]⟩]⟩
    (by simp [tokenize, tokenizeAux, allTokens, matchKind, matchLiteral, isWsChar,
      firstMatch, isSkipped])
    (by simp [parse, parseExpressionRule, parseAdditionExpression, parseAtomicExpression,
      parseManyTail, tokenMatcher, ancestors, ancestorsAux, categories])).1

/-- C7: round-trip losslessness of the lexer — for every text composed
solely of declared leaf-kind patterns separated by whitespace, tokenization
succeeds, the scanned segments (token images plus the discarded whitespace
runs) concatenate back to the original text exactly, the emitted token
images are precisely the non-skipped segments in order, and every discarded
segment is whitespace. -/
theorem c7_lossless_roundtrip :
    ∀ cs : List Char, Interleaving cs →
      ∃ sgs ts, tokenizeSegsAux cs 0 = .ok sgs ∧ tokenizeAux cs 0 = .ok ts ∧
        (sgs.map Prod.snd).flatten = cs ∧
        ts.map Token.image = (sgs.filter (fun s => !isSkipped s.1)).map Prod.snd ∧
        (∀ s ∈ sgs, isSkipped s.1 = true → ∀ c ∈ s.2, isWsChar c = true) :=
  fun cs h => interleaving_tokenize cs.length cs (Nat.le_refl _) h 0

/-- Witness for C7 at `"one plus two"`. -/
theorem c7_lossless_roundtrip_witness :
    ∃ sgs ts,
      tokenizeSegsAux "one plus two".toList 0 = .ok sgs ∧
      tokenizeAux "one plus two".toList 0 = .ok ts ∧
      (sgs.map Prod.snd).flatten = "one plus two".toList ∧
      ts.map Token.image = (sgs.filter (fun s => !isSkipped s.1)).map Prod.snd ∧
      (∀ s ∈ sgs, isSkipped s.1 = true → ∀ c ∈ s.2, isWsChar c = true) :=
  c7_lossless_roundtrip "one plus two".toList
    (show Interleaving ("one".toList ++ ([' '] ++ ("plus".toList ++
        ([' '] ++ ("two".toList ++ []))))) from
      .word (by simp [leafPatterns])
        (.ws (by simp) (by decide)
          (.word (by simp [leafPatterns])
            (.ws (by simp) (by decide)
              (.word (by simp [leafPatterns]) .nil)))))

end Calculator
